import Mathlib

/-!
Verification of `myphysicslab`'s `RandomLCG` (src/lab/util/RandomLCG.js) and
`CardioidPath` (src/sims/roller/CardioidPath.js) against their specification.

The generator works on JavaScript doubles, but (as the source's own header
comment proves) every intermediate value is a non-negative integer below
`(m-1)*a + c < 2^53`, so all arithmetic is exact and is embedded here over
`Nat` (seeds, draws) and `ℚ` (caller-supplied numbers that may be fractional,
and float-valued results such as `nextFloat`).
-/

namespace RandomLCG

/-- Constant `RandomLCG.m = 0x100000000`, the modulus. -/
def m : Nat := 0x100000000

/-- Constant `RandomLCG.a = 1664525`, the multiplier. -/
def a : Nat := 1664525

/-- Constant `RandomLCG.c = 1013904223`, the increment. -/
def c : Nat := 1013904223

/-- Static method `RandomLCG.checkSeed`: throws unless the seed is an integer in `[0, m)`.
The seed argument is a JavaScript number, embedded as `ℚ`. -/
def checkSeed (seed : ℚ) : Except String Unit :=
  if seed < 0 then .error "random seed must be 0 or greater"
  else if (m : ℚ) ≤ seed then .error "random seed must be less than m"
  else if seed ≠ (⌊seed⌋ : ℚ) then .error "random seed must be an integer"
  else .ok ()

/-- The `RandomLCG` constructor.  `seedArg = none` models calling it with
`seed === undefined`, in which case the current clock time `now` is used.
Either way the seed is normalized by `Math.floor(Math.abs(seed)) % m`.
(The subsequent `checkSeed` call never throws on this value; see
`checkSeed_natCast`.) -/
def mkRandomLCG (seedArg : Option ℚ) (now : ℚ) : Nat :=
  let seed := seedArg.getD now
  ⌊|seed|⌋.toNat % m

/-- Method `RandomLCG.prototype.getModulus`. -/
def getModulus (_seed : Nat) : Nat := m

/-- Method `RandomLCG.prototype.getSeed`. -/
def getSeed (seed : Nat) : Nat := seed

/-- Method `RandomLCG.prototype.nextInt_`: `r = seed*a + c`, the new seed is
`r - Math.floor(r/m)*m`, which is both stored and returned.  (The `checkSeed`
assertion on the new seed never throws; see `nextInt_lt`.) -/
def nextInt_ (seed : Nat) : Nat :=
  let r := seed * a + c
  r - r / m * m

/-- Method `RandomLCG.prototype.nextInt`: returns `nextInt_()`.  The pair is
(returned value, new state). -/
def nextInt (seed : Nat) : Nat × Nat :=
  let x := nextInt_ seed
  (x, x)

/-- Method `RandomLCG.prototype.nextFloat`: one `nextInt_()` draw divided by `m - 1`. -/
def nextFloat (seed : Nat) : ℚ × Nat :=
  let x := nextInt_ seed
  ((x : ℚ) / ((m : ℚ) - 1), x)

/-- Method `RandomLCG.prototype.nextRange_`: throws if `n <= 0`; otherwise draws
`x = nextInt_()`, forms `randomUnder1 = x / m` and returns
`Math.floor(randomUnder1 * n)`.  For integer `n` this floor is the natural
division `x * n / m`.  The second component
is the state after the call: unchanged when the error is thrown. -/
def nextRange_ (n : Int) (seed : Nat) : Except String Nat × Nat :=
  if n ≤ 0 then (.error "n must be positive", seed)
  else
    let x := nextInt_ seed
    (.ok (x * n.toNat / m), x)

/-- Method `RandomLCG.prototype.nextRange`: returns `nextRange_(n)`. -/
def nextRange (n : Int) (seed : Nat) : Except String Nat × Nat :=
  nextRange_ n seed

/-- The inner `for (j=0; j<n; j++)` loop of `randomInts`: scan `src`, skip
entries `< 0`, and when the running count `srcCount` of non-negative entries
reaches `k`, take that entry, overwrite it with `-1` and stop.  Returns the
taken value and the updated `src`, or `none` when the scan falls off the end
(in which case the JavaScript loop places nothing). -/
def pickKth : List Int → Nat → Option (Int × List Int)
  | [], _ => none
  | x :: rest, k =>
    if x < 0 then (pickKth rest k).map fun p => (p.1, x :: p.2)
    else if k = 0 then some (x, (-1 : Int) :: rest)
    else (pickKth rest (k - 1)).map fun p => (p.1, x :: p.2)

/-- The `do … while (set[n-1] < 0)` loop of `randomInts`.  One call per loop
iteration: draw `k = nextRange_(mm)` (with `mm` decremented after the call),
move the `k`-th still-available number of `src` into `set[setCount]`, and
repeat until `set[n-1]` is non-negative.  `fuel` bounds the recursion; the
interesting runs never exhaust it (see `randomIntsLoop_ok`). -/
def randomIntsLoop (n : Nat) : Nat → Nat → List Int → List Int → Nat → Nat →
    Except String (List Int) × Nat
  | 0, _, _, _, _, seed => (.error "out of fuel", seed)
  | fuel + 1, mm, set, src, setCount, seed =>
    match nextRange_ (mm : Int) seed with
    | (.error e, seed') => (.error e, seed')
    | (.ok k, seed') =>
      match pickKth src k with
      | none =>
        if set.getD (n - 1) (-1) < 0 then
          randomIntsLoop n fuel (mm - 1) set src setCount seed'
        else (.ok set, seed')
      | some (v, src') =>
        let set' := set.set setCount v
        if set'.getD (n - 1) (-1) < 0 then
          randomIntsLoop n fuel (mm - 1) set' src' (setCount + 1) seed'
        else (.ok set', seed')

/-- Method `RandomLCG.prototype.randomInts`: `set` starts as `n` copies of `-1`,
`src` as `[0, …, n-1]`, and the do-while loop moves numbers from `src` to
`set` in random order.  `n + 1` fuel is enough for every run that terminates
(each successful iteration fills one slot of `set`). -/
def randomInts (n : Nat) (seed : Nat) : Except String (List Int) × Nat :=
  let set := List.replicate n (-1 : Int)
  let src := (List.range n).map Int.ofNat
  randomIntsLoop n (n + 1) n set src 0 seed

/-- Method `RandomLCG.prototype.setSeed`: `checkSeed(seed)` then store it.  On the
error path the stored seed is untouched. -/
def setSeed (seedArg : ℚ) (seed : Nat) : Except String Unit × Nat :=
  match checkSeed seedArg with
  | .error e => (.error e, seed)
  | .ok () => (.ok (), ⌊seedArg⌋.toNat)

/-- List of still-available entries of `src`: the ones the inner loop of
`randomInts` does not skip (`src[j] < 0 → continue`). -/
def avail (l : List Int) : List Int := l.filter fun x => decide (0 ≤ x)

/-- Geometric sum `S n = 1 + a + a^2 + … + a^(n-1)`, the factor by which the
increment `c` accumulates after `n` iterations of `nextInt_`.  Used to settle
the full-period property of the generator. -/
def S : Nat → Nat
  | 0 => 0
  | n + 1 => a * S n + 1

/-- One call of the public `RandomLCG` API, for stating determinism of a whole
call sequence. -/
inductive LcgCall where
  | getModulusC : LcgCall
  | getSeedC : LcgCall
  | nextIntC : LcgCall
  | nextFloatC : LcgCall
  | nextRangeC (n : Int) : LcgCall
  | randomIntsC (n : Nat) : LcgCall

/-- Observable result of one public API call. -/
inductive LcgOut where
  | natO (v : Nat) : LcgOut
  | ratO (v : ℚ) : LcgOut
  | rangeO (v : Except String Nat) : LcgOut
  | intsO (v : Except String (List Int)) : LcgOut

/-- Dispatch one public API call against the current seed, returning the
observable output and the new seed. -/
def step : LcgCall → Nat → LcgOut × Nat
  | .getModulusC, s => (.natO (getModulus s), s)
  | .getSeedC, s => (.natO (getSeed s), s)
  | .nextIntC, s => ((nextInt s).1, (nextInt s).2) |> fun p => (.natO p.1, p.2)
  | .nextFloatC, s => (.ratO (nextFloat s).1, (nextFloat s).2)
  | .nextRangeC n, s => (.rangeO (nextRange n s).1, (nextRange n s).2)
  | .randomIntsC n, s => (.intsO (randomInts n s).1, (randomInts n s).2)

/-- Run a sequence of public API calls from a starting seed, collecting every
observable output and the final seed. -/
def runCalls : List LcgCall → Nat → List LcgOut × Nat
  | [], s => ([], s)
  | cl :: rest, s =>
    let p := step cl s
    let q := runCalls rest p.2
    (p.1 :: q.1, q.2)

end RandomLCG

namespace CardioidPath

/-- Data of a constructed `CardioidPath`: the radius field `a_` plus the
`start`/`finish`/`closedLoop` values passed up to the `AbstractPath` base
constructor.  The name strings are irrelevant to the claims and omitted. -/
structure Path where
  a_ : ℝ
  startP : ℝ
  finishP : ℝ
  closedLoop : Bool

/-- The `CardioidPath` constructor: `start`, `finish` default to `-π`, `π`
when not supplied as numbers, `closedLoop` defaults to `false` when
undefined, and the radius is stored in the immutable field `a_`. -/
noncomputable def mk' (radius : ℝ) (start finish : Option ℝ) (closedLoop : Option Bool) : Path :=
  { a_ := radius
    startP := start.getD (-Real.pi)
    finishP := finish.getD Real.pi
    closedLoop := closedLoop.getD false }

/-- Method `CardioidPath.prototype.x_func`: `c = cos(t)`, result
`a_ * sin(t) * (1+c)`. -/
noncomputable def x_func (p : Path) (t : ℝ) : ℝ :=
  let cc := Real.cos t
  p.a_ * Real.sin t * (1 + cc)

/-- Method `CardioidPath.prototype.y_func`: `c = cos(t)`, result
`-a_ * c * (1+c)`. -/
noncomputable def y_func (p : Path) (t : ℝ) : ℝ :=
  let cc := Real.cos t;
  -p.a_ * cc * (1 + cc)

end CardioidPath

namespace RandomLCG

/-- Subtracting `Math.floor(r/m)*m` is exactly reduction modulo `m`. -/
theorem nextInt_eq_mod (s : Nat) : nextInt_ s = (s * a + c) % m := by
  show (s * a + c) - (s * a + c) / m * m = (s * a + c) % m
  have h := Nat.div_add_mod' (s * a + c) m
  omega

/-- The advanced seed is always below the modulus, so the `checkSeed`
assertion inside `nextInt_` never fires. -/
theorem nextInt_lt (s : Nat) : nextInt_ s < m := by
  rw [nextInt_eq_mod]
  exact Nat.mod_lt _ (by decide)

/-- Casting a natural number below `m` never trips `checkSeed`. -/
theorem checkSeed_natCast {v : Nat} (hv : v < m) : checkSeed (v : ℚ) = .ok () := by
  have h1 : ¬((v : ℚ) < 0) := not_lt.2 (Nat.cast_nonneg v)
  have h2 : ¬((m : ℚ) ≤ (v : ℚ)) := not_le.2 (by exact_mod_cast hv)
  have h3 : (v : ℚ) = (⌊(v : ℚ)⌋ : ℚ) := by rw [Int.floor_natCast]; simp
  unfold checkSeed
  rw [if_neg h1, if_neg h2, if_neg (not_not_intro h3)]

/-- C1: with seed `s` an integer in `[0, m)`, `nextInt()` stores
`r - floor(r/m)*m` where `r = s*a + c`, which equals `(s*a + c) mod m`,
returns the new seed, and the result lies in `[0, m)`; from seed `0` the
first call returns `1013904223` and the second returns
`(1013904223*1664525 + 1013904223) mod 2^32`. -/
theorem nextInt_advances_mod (s : Nat) (_hs : s < m) :
    (nextInt s).2 = (s * a + c) - (s * a + c) / m * m ∧
    (nextInt s).2 = (s * a + c) % m ∧
    (nextInt s).1 = (nextInt s).2 ∧
    (nextInt s).1 < m ∧
    (nextInt 0).1 = 1013904223 ∧
    (nextInt (nextInt 0).2).1 = (1013904223 * 1664525 + 1013904223) % 2 ^ 32 := by
  refine ⟨rfl, nextInt_eq_mod s, rfl, nextInt_lt s, by decide, by decide⟩

/-- Witness for C1 at seed `0`. -/
theorem nextInt_advances_mod_witness : (nextInt 0).1 < m :=
  (nextInt_advances_mod 0 (by decide)).2.2.2.1

/-- C3: `nextFloat()` performs exactly one advance of the state and returns
`raw / (m-1)` for the advanced seed `raw`; the value lies in `[0, 1]` and is
exactly `1` when `raw = m - 1`. -/
theorem nextFloat_spec (s : Nat) :
    nextFloat s = ((nextInt_ s : ℚ) / ((m : ℚ) - 1), nextInt_ s) ∧
    0 ≤ (nextFloat s).1 ∧ (nextFloat s).1 ≤ 1 ∧
    (nextInt_ s = m - 1 → (nextFloat s).1 = 1) := by
  have hm : (m : ℚ) - 1 = 4294967295 := by norm_num [m]
  have hx : nextInt_ s ≤ 4294967295 := by
    have := nextInt_lt s
    unfold m at this
    omega
  refine ⟨rfl, ?_, ?_, ?_⟩
  · exact div_nonneg (Nat.cast_nonneg _) (by rw [hm]; norm_num)
  · show (nextInt_ s : ℚ) / ((m : ℚ) - 1) ≤ 1
    rw [hm, div_le_one (by norm_num)]
    exact_mod_cast hx
  · intro h
    show (nextInt_ s : ℚ) / ((m : ℚ) - 1) = 1
    rw [h, hm]
    norm_num [m]

/-- Witness for C3: a seed whose advance reaches `m - 1`, making
`nextFloat` return exactly `1`. -/
theorem nextFloat_spec_witness : (nextFloat 653637408).1 = 1 :=
  (nextFloat_spec 653637408).2.2.2 (by decide)

/-- C7: construction with a numeric seed argument stores
`floor(|seed|) mod m`; this normalization never errors (the subsequent
`checkSeed` succeeds), and constructing with seed `5` makes `getSeed`
return `5`. -/
theorem mkRandomLCG_normalizes (q now now' : ℚ) :
    mkRandomLCG (some q) now = ⌊|q|⌋.toNat % m ∧
    checkSeed ((mkRandomLCG (some q) now : Nat) : ℚ) = .ok () ∧
    getSeed (mkRandomLCG (some 5) now') = 5 := by
  refine ⟨rfl, checkSeed_natCast (Nat.mod_lt _ (by decide)), ?_⟩
  show (⌊|(5 : ℚ)|⌋.toNat % m) = 5
  norm_num [m]
  decide

/-- C10: for any constructed `CardioidPath`, `x_func(t)` is
`a·sin(t)·(1+cos(t))` and `y_func(t)` is `−a·cos(t)·(1+cos(t))`, depending
only on `t` and the radius; omitted `start`, `finish`, `closedLoop`
arguments default to `-π`, `π`, `false`. -/
theorem cardioid_funcs (r : ℝ) (so fo : Option ℝ) (co : Option Bool) (t : ℝ) :
    CardioidPath.x_func (CardioidPath.mk' r so fo co) t
        = r * Real.sin t * (1 + Real.cos t) ∧
    CardioidPath.y_func (CardioidPath.mk' r so fo co) t
        = -(r * Real.cos t * (1 + Real.cos t)) ∧
    (CardioidPath.mk' r none none none).startP = -Real.pi ∧
    (CardioidPath.mk' r none none none).finishP = Real.pi ∧
    (CardioidPath.mk' r none none none).closedLoop = false := by
  refine ⟨rfl, ?_, rfl, rfl, rfl⟩
  show -r * Real.cos t * (1 + Real.cos t) = -(r * Real.cos t * (1 + Real.cos t))
  ring

/-- C4: `nextRange(n)` raises exactly when `n ≤ 0` and then leaves the seed
unchanged; for `n > 0` it returns `floor((x/m)·n)` for a single draw
`x = nextInt()`, an integer in `[0, n)`. -/
theorem nextRange_spec (n : Int) (s : Nat) :
    ((∃ e, (nextRange n s).1 = Except.error e) ↔ n ≤ 0) ∧
    (n ≤ 0 → (nextRange n s).2 = s) ∧
    (0 < n →
      (nextRange n s).1 = .ok (nextInt_ s * n.toNat / m) ∧
      ((nextInt_ s * n.toNat / m : ℕ) : ℤ) = ⌊((nextInt_ s : ℚ) / (m : ℚ)) * (n : ℚ)⌋ ∧
      ((nextInt_ s * n.toNat / m : ℕ) : ℤ) < n) := by
  by_cases hn : n ≤ 0
  · refine ⟨⟨fun _ => hn, fun _ => ⟨"n must be positive", ?_⟩⟩, fun _ => ?_,
      fun h0 => absurd h0 (not_lt.2 hn)⟩
    · show (nextRange_ n s).1 = _
      rw [nextRange_, if_pos hn]
    · show (nextRange_ n s).2 = s
      rw [nextRange_, if_pos hn]
  · have h0 : 0 < n := lt_of_not_le hn
    have hval : nextRange n s = (.ok (nextInt_ s * n.toNat / m), nextInt_ s) := by
      show nextRange_ n s = _
      rw [nextRange_, if_neg hn]
    have htn : 0 < n.toNat := by omega
    have hbound : nextInt_ s * n.toNat / m < n.toNat := by
      rw [Nat.div_lt_iff_lt_mul (by decide : 0 < m)]
      calc nextInt_ s * n.toNat < m * n.toNat :=
            Nat.mul_lt_mul_of_lt_of_le (nextInt_lt s) (Nat.le_refl _) htn
        _ = n.toNat * m := Nat.mul_comm _ _
    refine ⟨⟨fun ⟨e, he⟩ => ?_, fun h => absurd h hn⟩, fun h => absurd h hn, fun _ => ⟨?_, ?_, ?_⟩⟩
    · rw [hval] at he
      exact absurd he (by simp)
    · rw [hval]
    · have hnq : ((n : ℤ) : ℚ) = ((n.toNat : ℕ) : ℚ) := by
        exact_mod_cast congrArg (fun z : ℤ => (z : ℚ))
          (Int.toNat_of_nonneg (le_of_lt h0)).symm
      have hq : ((nextInt_ s : ℚ) / (m : ℚ)) * (n : ℚ)
          = ((nextInt_ s * n.toNat : ℕ) : ℚ) / ((m : ℕ) : ℚ) := by
        rw [hnq]
        push_cast
        ring
      rw [hq, Rat.floor_natCast_div_natCast]
      norm_cast
    · omega

/-- Witness for C4 at `n = 10`, seed `0`. -/
theorem nextRange_spec_witness :
    (nextRange 10 0).1 = .ok (nextInt_ 0 * (10 : Int).toNat / m) :=
  ((nextRange_spec 10 0).2.2 (by decide)).1

/-- Successful `checkSeed` is exactly: non-negative, below the modulus, and
integral. -/
theorem checkSeed_eq_ok_iff (q : ℚ) :
    checkSeed q = .ok () ↔ ¬(q < 0 ∨ (m : ℚ) ≤ q ∨ q ≠ (⌊q⌋ : ℚ)) := by
  unfold checkSeed
  split_ifs with h1 h2 h3
  · simp [h1]
  · simp [h1, h2]
  · simp [h1, h2, h3]
  · simp [h1, h2, h3]

/-- Failing `checkSeed` is exactly: negative, at least the modulus, or
non-integral. -/
theorem checkSeed_error_iff (q : ℚ) :
    (∃ e, checkSeed q = .error e) ↔ (q < 0 ∨ (m : ℚ) ≤ q ∨ q ≠ (⌊q⌋ : ℚ)) := by
  unfold checkSeed
  split_ifs with h1 h2 h3
  · simp [h1]
  · simp [h1, h2]
  · simp [h1, h2, h3]
  · simp [h1, h2, h3]

/-- C5: `setSeed` raises exactly when the argument is negative, `≥ m`, or
non-integral (in particular at `-1`, `4294967296` and `3.5`); on failure the
internal seed is unchanged, and on success the given value is stored
verbatim, so `getSeed` then returns it. -/
theorem setSeed_spec (q : ℚ) (s : Nat) :
    ((∃ e, (setSeed q s).1 = Except.error e) ↔
      (q < 0 ∨ (m : ℚ) ≤ q ∨ q ≠ (⌊q⌋ : ℚ))) ∧
    ((q < 0 ∨ (m : ℚ) ≤ q ∨ q ≠ (⌊q⌋ : ℚ)) → (setSeed q s).2 = s) ∧
    ((setSeed q s).1 = .ok () →
      ((getSeed (setSeed q s).2 : ℕ) : ℚ) = q) ∧
    (∃ e, (setSeed (-1) s).1 = Except.error e) ∧
    (∃ e, (setSeed 4294967296 s).1 = Except.error e) ∧
    (∃ e, (setSeed 3.5 s).1 = Except.error e) := by
  have herr : ∀ (q' : ℚ), (q' < 0 ∨ (m : ℚ) ≤ q' ∨ q' ≠ (⌊q'⌋ : ℚ)) →
      (∃ e, (setSeed q' s).1 = Except.error e) ∧ (setSeed q' s).2 = s := by
    intro q' hq'
    obtain ⟨e, he⟩ := (checkSeed_error_iff q').2 hq'
    exact ⟨⟨e, by simp [setSeed, he]⟩, by simp [setSeed, he]⟩
  have hfloor35 : ⌊(3.5 : ℚ)⌋ = 3 := by
    rw [Int.floor_eq_iff]
    norm_num
  refine ⟨⟨?_, fun h => (herr q h).1⟩, fun h => (herr q h).2, ?_, (herr _ ?_).1,
    (herr _ ?_).1, (herr _ ?_).1⟩
  · rintro ⟨e, he⟩
    by_contra hq
    have hok : checkSeed q = .ok () := (checkSeed_eq_ok_iff q).2 hq
    simp [setSeed, hok] at he
  · intro hok
    cases hcs : checkSeed q with
    | error e => simp [setSeed, hcs] at hok
    | ok u =>
      cases u
      have hq := (checkSeed_eq_ok_iff q).1 hcs
      push_neg at hq
      obtain ⟨hq0, _, hqi⟩ := hq
      have hfl : (0 : ℤ) ≤ ⌊q⌋ := Int.floor_nonneg.2 hq0
      have hcast : ((⌊q⌋.toNat : ℕ) : ℚ) = ((⌊q⌋ : ℤ) : ℚ) := by
        exact_mod_cast congrArg (fun z : ℤ => (z : ℚ)) (Int.toNat_of_nonneg hfl)
      show (((setSeed q s).2 : ℕ) : ℚ) = q
      rw [show (setSeed q s).2 = ⌊q⌋.toNat from by simp [setSeed, hcs], hcast]
      exact hqi.symm
  · exact Or.inl (by norm_num)
  · exact Or.inr (Or.inl (by norm_num [m]))
  · refine Or.inr (Or.inr ?_)
    rw [hfloor35]
    norm_num

/-- Witness for C5: `setSeed(5)` succeeds and stores exactly `5`. -/
theorem setSeed_spec_witness : ((getSeed (setSeed 5 4).2 : ℕ) : ℚ) = 5 :=
  (setSeed_spec 5 4).2.2.1 (by
    have h5 : ⌊(5 : ℚ)⌋ = 5 := by norm_num
    have : checkSeed 5 = .ok () := by
      rw [checkSeed_eq_ok_iff, h5]
      push_neg
      refine ⟨by norm_num, by norm_num [m], by norm_num⟩
    simp [setSeed, this])

/-- C8: two generators built with the same explicit seed (whatever the clock
read at construction) and driven through the same sequence of API calls
produce identical outputs at every step and identical final states. -/
theorem lcg_determinism (q now1 now2 : ℚ) (s1 s2 : Nat) (calls : List LcgCall)
    (h1 : s1 = mkRandomLCG (some q) now1) (h2 : s2 = mkRandomLCG (some q) now2) :
    runCalls calls s1 = runCalls calls s2 := by
  subst h1
  subst h2
  rfl

/-- Witness for C8 with seed `5` and two different clock values. -/
theorem lcg_determinism_witness :
    runCalls [LcgCall.nextIntC, LcgCall.nextFloatC] (mkRandomLCG (some 5) 0)
      = runCalls [LcgCall.nextIntC, LcgCall.nextFloatC] (mkRandomLCG (some 5) 123) :=
  lcg_determinism 5 0 123 _ _ [LcgCall.nextIntC, LcgCall.nextFloatC] rfl rfl

/-- State left behind by the `randomInts` do-while loop: either untouched
(an error path was hit before any advance) or the result of some advance,
hence below the modulus. -/
theorem randomIntsLoop_snd (n : Nat) : ∀ fuel mm set src sc s,
    (randomIntsLoop n fuel mm set src sc s).2 = s ∨
    (randomIntsLoop n fuel mm set src sc s).2 < m := by
  intro fuel
  induction fuel with
  | zero => exact fun mm set src sc s => Or.inl rfl
  | succ fuel ih =>
    intro mm set src sc s
    by_cases hmm : (mm : Int) ≤ 0
    · left
      simp [randomIntsLoop, nextRange_, hmm]
    · have hstep : nextRange_ (mm : Int) s
          = (.ok (nextInt_ s * (mm : Int).toNat / m), nextInt_ s) := by
        rw [nextRange_, if_neg hmm]
      have hlt := nextInt_lt s
      simp only [randomIntsLoop, hstep]
      cases hp : pickKth src (nextInt_ s * (mm : Int).toNat / m) with
      | none =>
        dsimp only
        split
        · rcases ih (mm - 1) set src sc (nextInt_ s) with h | h
          · right; rw [h]; exact hlt
          · right; exact h
        · right; exact hlt
      | some p =>
        dsimp only
        split
        · rcases ih (mm - 1) (set.set sc p.1) p.2 (sc + 1) (nextInt_ s) with h | h
          · right; rw [h]; exact hlt
          · right; exact h
        · right; exact hlt

/-- C6: the seed is an integer in `[0, m)` after construction (with or
without a seed argument) and after every successful draw or `setSeed`;
every operation preserves the invariant. -/
theorem seed_invariant (s : Nat) (hs : s < m) (n : Int) (k : Nat) (q now : ℚ) :
    mkRandomLCG (some q) now < m ∧
    mkRandomLCG none now < m ∧
    (nextInt s).2 < m ∧
    (nextFloat s).2 < m ∧
    (nextRange n s).2 < m ∧
    (randomInts k s).2 < m ∧
    ((setSeed q s).1 = .ok () → (setSeed q s).2 < m) := by
  refine ⟨Nat.mod_lt _ (by decide), Nat.mod_lt _ (by decide), nextInt_lt s,
    nextInt_lt s, ?_, ?_, ?_⟩
  · show (nextRange_ n s).2 < m
    rw [nextRange_]
    split
    · exact hs
    · exact nextInt_lt s
  · show (randomIntsLoop k (k + 1) k (List.replicate k (-1))
      ((List.range k).map Int.ofNat) 0 s).2 < m
    rcases randomIntsLoop_snd k (k + 1) k (List.replicate k (-1))
      ((List.range k).map Int.ofNat) 0 s with h | h
    · rw [h]; exact hs
    · exact h
  · intro hok
    cases hcs : checkSeed q with
    | error e => simp [setSeed, hcs] at hok
    | ok u =>
      cases u
      have hq := (checkSeed_eq_ok_iff q).1 hcs
      push_neg at hq
      obtain ⟨hq0, hqm, hqi⟩ := hq
      have hflm : ⌊q⌋ < (m : ℤ) := by
        have : (⌊q⌋ : ℚ) < (m : ℚ) := hqi ▸ hqm
        exact_mod_cast this
      have : (setSeed q s).2 = ⌊q⌋.toNat := by simp [setSeed, hcs]
      rw [this]
      omega

/-- Witness for C6 at seed `0`. -/
theorem seed_invariant_witness : (RandomLCG.nextInt 0).2 < RandomLCG.m :=
  (seed_invariant 0 (by decide) 1 1 5 0).2.2.1

/-- Skipped entries do not appear in `avail`. -/
theorem avail_cons_neg {x : Int} (hx : x < 0) (l : List Int) :
    avail (x :: l) = avail l := by
  simp [avail, List.filter_cons, not_le.2 hx]

/-- Non-negative entries stay at the front of `avail`. -/
theorem avail_cons_nonneg {x : Int} (hx : 0 ≤ x) (l : List Int) :
    avail (x :: l) = x :: avail l := by
  simp [avail, List.filter_cons, hx]

/-- Putting an element back in front of the list it was removed from is a
permutation of the original list. -/
theorem cons_eraseIdx_perm : ∀ (l : List Int) (k : Nat) (v : Int),
    l[k]? = some v → (v :: l.eraseIdx k).Perm l := by
  intro l
  induction l with
  | nil => intro k v h; simp at h
  | cons x rest ih =>
    intro k v h
    cases k with
    | zero =>
      simp at h
      subst h
      rw [List.eraseIdx_cons_zero]
    | succ kk =>
      rw [List.getElem?_cons_succ] at h
      rw [List.eraseIdx_cons_succ]
      exact (List.Perm.swap x v _).trans ((ih kk v h).cons x)

/-- Specification of the inner scan of `randomInts`: when `k` is below the
number of still-available entries, it finds the `k`-th available value,
which is exactly entry `k` of `avail`, marks it `-1`, and the available
entries of the result are the original ones with entry `k` removed. -/
theorem pickKth_spec : ∀ (l : List Int) (k : Nat), k < (avail l).length →
    ∃ v l', pickKth l k = some (v, l') ∧ (avail l)[k]? = some v ∧
      avail l' = (avail l).eraseIdx k ∧ 0 ≤ v := by
  intro l
  induction l with
  | nil =>
    intro k hk
    simp [avail] at hk
  | cons x rest ih =>
    intro k hk
    by_cases hx : x < 0
    · rw [avail_cons_neg hx] at hk ⊢
      obtain ⟨v, l', hpick, hget, herase, hv⟩ := ih k hk
      refine ⟨v, x :: l', ?_, hget, ?_, hv⟩
      · simp [pickKth, hx, hpick]
      · rw [avail_cons_neg hx, herase]
    · have hx' : 0 ≤ x := not_lt.1 hx
      rw [avail_cons_nonneg hx'] at hk ⊢
      cases k with
      | zero =>
        refine ⟨x, -1 :: rest, ?_, by simp, ?_, hx'⟩
        · simp [pickKth, hx]
        · rw [avail_cons_neg (by norm_num : (-1 : Int) < 0), List.eraseIdx_cons_zero]
      | succ kk =>
        have hk' : kk < (avail rest).length := by
          simp only [List.length_cons] at hk
          omega
        obtain ⟨v, l', hpick, hget, herase, hv⟩ := ih kk hk'
        refine ⟨v, x :: l', ?_, ?_, ?_, hv⟩
        · simp [pickKth, hx, hpick]
        · rw [List.getElem?_cons_succ]
          exact hget
        · rw [avail_cons_nonneg hx', herase, List.eraseIdx_cons_succ]

/-- Setting the element right after a prefix updates index `0` of the
suffix. -/
theorem set_append_len : ∀ (l1 l2 : List Int) (v : Int),
    (l1 ++ l2).set l1.length v = l1 ++ l2.set 0 v := by
  intro l1
  induction l1 with
  | nil => intro l2 v; rfl
  | cons x r ih =>
    intro l2 v
    simp only [List.cons_append, List.length_cons, List.set_cons_succ, ih]

/-- One `nextRange_`-style draw with positive bound `t` lands below `t`. -/
theorem draw_lt {t : Nat} (ht : 0 < t) (s : Nat) : nextInt_ s * t / m < t := by
  rw [Nat.div_lt_iff_lt_mul (by decide : 0 < m)]
  calc nextInt_ s * t < m * t :=
        Nat.mul_lt_mul_of_lt_of_le (nextInt_lt s) (Nat.le_refl _) ht
    _ = t * m := Nat.mul_comm _ _

/-- Reading inside the `-1` padding of the output array gives `-1`. -/
theorem getD_append_replicate_neg (placed : List Int) (t i : Nat)
    (hi : placed.length ≤ i) (hi2 : i < placed.length + t) :
    (placed ++ List.replicate t (-1 : Int)).getD i (-1) = -1 := by
  rw [List.getD_eq_getElem?_getD, List.getElem?_append_right hi,
    List.getElem?_replicate, if_pos (by omega)]
  rfl

/-- Reading the element just appended after a prefix. -/
theorem getD_append_last (placed : List Int) (v : Int) :
    (placed ++ [v]).getD placed.length (-1) = v := by
  rw [List.getD_eq_getElem?_getD, List.getElem?_append_right (Nat.le_refl _)]
  simp

/-- A list of length one whose head is `v` is `[v]`. -/
theorem length_one_getElem?_eq {l : List Int} {v : Int} (h1 : l.length = 1)
    (h2 : l[0]? = some v) : l = [v] := by
  cases l with
  | nil => simp at h1
  | cons x r =>
    cases r with
    | nil =>
      simp at h2
      rw [h2]
    | cons y t => simp at h1

/-- Main invariant of the `randomInts` do-while loop: starting with `mm ≥ 1`
numbers still available in `src`, a prefix `placed` already moved into `set`,
and enough fuel, the loop succeeds and fills the rest of `set` with a
permutation of the available numbers. -/
theorem randomIntsLoop_ok (n : Nat) : ∀ mm, 1 ≤ mm → ∀ fuel, mm ≤ fuel →
    ∀ (placed src : List Int) (s : Nat),
    (avail src).length = mm → placed.length + mm = n →
    ∃ rest s', randomIntsLoop n fuel mm (placed ++ List.replicate mm (-1)) src
        placed.length s = (.ok (placed ++ rest), s') ∧ rest.Perm (avail src) := by
  intro mm
  induction mm with
  | zero => intro h; exact absurd h (by decide)
  | succ mmm ih =>
    intro _ fuel hfuel placed src s hav hlen
    obtain ⟨fuel', rfl⟩ : ∃ f, fuel = f + 1 := ⟨fuel - 1, by omega⟩
    have hmm : ¬((mmm + 1 : Nat) : Int) ≤ 0 := by omega
    have htoNat : ((mmm + 1 : Nat) : Int).toNat = mmm + 1 := Int.toNat_natCast _
    have hstep : nextRange_ ((mmm + 1 : Nat) : Int) s
        = (.ok (nextInt_ s * (mmm + 1) / m), nextInt_ s) := by
      rw [nextRange_, if_neg hmm, htoNat]
    have hk : nextInt_ s * (mmm + 1) / m < mmm + 1 := draw_lt (Nat.succ_pos _) s
    obtain ⟨v, src', hpick, hget, herase, hv⟩ :=
      pickKth_spec src _ (by rw [hav]; exact hk)
    have hset : (placed ++ List.replicate (mmm + 1) (-1 : Int)).set placed.length v
        = (placed ++ [v]) ++ List.replicate mmm (-1) := by
      rw [set_append_len, List.replicate_succ, List.set_cons_zero, List.append_cons]
    have hone : randomIntsLoop n (fuel' + 1) (mmm + 1)
        (placed ++ List.replicate (mmm + 1) (-1)) src placed.length s
        = if ((placed ++ [v]) ++ List.replicate mmm (-1 : Int)).getD (n - 1) (-1) < 0
          then randomIntsLoop n fuel' mmm ((placed ++ [v]) ++ List.replicate mmm (-1))
            src' (placed.length + 1) (nextInt_ s)
          else (.ok ((placed ++ [v]) ++ List.replicate mmm (-1)), nextInt_ s) := by
      simp only [randomIntsLoop, hstep, hpick, hset, Nat.add_sub_cancel]
    cases Nat.eq_zero_or_pos mmm with
    | inl h0 =>
      subst h0
      have hgd : ((placed ++ [v]) ++ List.replicate 0 (-1 : Int)).getD (n - 1) (-1)
          = v := by
        simp only [List.replicate_zero, List.append_nil]
        rw [show n - 1 = placed.length from by omega]
        exact getD_append_last placed v
      rw [hone, hgd, if_neg (not_lt.2 hv)]
      refine ⟨[v], nextInt_ s, by simp, ?_⟩
      have hk0 : nextInt_ s * (0 + 1) / m = 0 :=
        Nat.div_eq_of_lt (by simpa using nextInt_lt s)
      rw [hk0] at hget
      rw [length_one_getElem?_eq hav hget]
    | inr hpos =>
      have hgd : ((placed ++ [v]) ++ List.replicate mmm (-1 : Int)).getD (n - 1) (-1)
          = -1 := by
        apply getD_append_replicate_neg
        · simp only [List.length_append, List.length_cons, List.length_nil]
          omega
        · simp only [List.length_append, List.length_cons, List.length_nil]
          omega
      rw [hone, hgd, if_pos (by norm_num)]
      have hav' : (avail src').length = mmm := by
        rw [herase]
        have := List.length_eraseIdx_add_one
          (show nextInt_ s * (mmm + 1) / m < (avail src).length from by
            rw [hav]; exact hk)
        omega
      have hlen1 : (placed ++ [v]).length = placed.length + 1 := by simp
      have hlenv : (placed ++ [v]).length + mmm = n := by
        rw [hlen1]
        omega
      obtain ⟨rest, s', hrun, hperm⟩ := ih hpos fuel' (by omega) (placed ++ [v]) src'
        (nextInt_ s) hav' hlenv
      refine ⟨v :: rest, s', ?_, ?_⟩
      · rw [hlen1] at hrun
        rw [hrun]
        simp
      · exact (List.Perm.cons v (herase ▸ hperm)).trans (cons_eraseIdx_perm _ _ v hget)

/-- For `n ≥ 1`, `randomInts(n)` succeeds and returns a permutation of
`0..n-1`. -/
theorem randomInts_ok (n s : Nat) (hn : 1 ≤ n) :
    ∃ out s', randomInts n s = (.ok out, s') ∧
      out.Perm ((List.range n).map Int.ofNat) := by
  have havail : avail ((List.range n).map Int.ofNat) = (List.range n).map Int.ofNat := by
    rw [avail, List.filter_eq_self]
    intro x hx
    simp only [List.mem_map, List.mem_range] at hx
    obtain ⟨i, _, rfl⟩ := hx
    exact decide_eq_true (Int.ofNat_nonneg i)
  have hlen : (avail ((List.range n).map Int.ofNat)).length = n := by
    rw [havail]
    simp
  obtain ⟨rest, s', hrun, hperm⟩ := randomIntsLoop_ok n n hn (n + 1) (by omega) []
    ((List.range n).map Int.ofNat) s hlen (by simp)
  refine ⟨rest, s', ?_, by rw [← havail]; exact hperm⟩
  show randomIntsLoop n (n + 1) n (List.replicate n (-1))
    ((List.range n).map Int.ofNat) 0 s = _
  simpa using hrun

/-- C2 (amended): for every `n ≥ 1`, `randomInts(n)` returns an ordered
sequence of length `n` that is a permutation of `0..n-1`, and for `n = 1` it
returns `[0]`; for `n = 0` the call fails instead of returning an empty
sequence (see `randomInts_zero_counterexample`). -/
theorem randomInts_spec (n s : Nat) (hn : 1 ≤ n) :
    (∃ out s', randomInts n s = (.ok out, s') ∧ out.length = n ∧
      out.Perm ((List.range n).map Int.ofNat)) ∧
    (randomInts 1 s).1 = .ok [0] := by
  constructor
  · obtain ⟨out, s', h1, hperm⟩ := randomInts_ok n s hn
    refine ⟨out, s', h1, ?_, hperm⟩
    rw [hperm.length_eq]
    simp
  · obtain ⟨out, s', h1, hperm⟩ := randomInts_ok 1 s (Nat.le_refl 1)
    have h01 : (List.range 1).map Int.ofNat = [(0 : Int)] := by rfl
    have hout : out = [(0 : Int)] := List.perm_singleton.1 (h01 ▸ hperm)
    rw [h1, hout]

/-- Witness for C2 at `n = 1`, seed `7`. -/
theorem randomInts_spec_witness : (randomInts 1 7).1 = .ok [0] :=
  (randomInts_spec 1 7 (by decide)).2

/-- C2 counterexample: `randomInts(0)` does not return the empty sequence;
the do-while body runs unconditionally, so the very first iteration calls
`nextRange_(0)`, which throws with the seed untouched. -/
theorem randomInts_zero_counterexample :
    (randomInts 0 0).1 ≠ .ok [] ∧
    randomInts 0 0 = (.error "n must be positive", 0) := by
  have h : randomInts 0 0 = (.error "n must be positive", 0) := by rfl
  refine ⟨?_, h⟩
  rw [h]
  simp

/-- Geometric sum recursion from the top term. -/
theorem S_succ' (n : Nat) : S (n + 1) = S n + a ^ n := by
  induction n with
  | zero => rfl
  | succ k ih =>
    calc S (k + 2) = a * S (k + 1) + 1 := rfl
      _ = a * (S k + a ^ k) + 1 := by rw [ih]
      _ = (a * S k + 1) + a ^ (k + 1) := by rw [pow_succ]; ring
      _ = S (k + 1) + a ^ (k + 1) := by rw [show S (k + 1) = a * S k + 1 from rfl]

/-- Closed form relating powers of the multiplier to the geometric sum. -/
theorem geo (n : Nat) : a ^ n = 1664524 * S n + 1 := by
  induction n with
  | zero => rfl
  | succ k ih =>
    rw [pow_succ, ih, show S (k + 1) = a * S k + 1 from rfl,
      show a = 1664524 + 1 from rfl]
    ring

/-- Splitting the geometric sum at `p`. -/
theorem S_add (p q : Nat) : S (p + q) = S p + a ^ p * S q := by
  induction q with
  | zero =>
    rw [show S 0 = 0 from rfl]
    simp
  | succ k ih =>
    have h1 : p + (k + 1) = (p + k) + 1 := by omega
    rw [h1, S_succ', ih, S_succ', pow_add]
    ring

/-- Doubling the geometric sum. -/
theorem S_double (p : Nat) : S (2 * p) = S p * (1 + a ^ p) := by
  rw [two_mul, S_add]
  ring

/-- The geometric sum has the same parity as its length (the multiplier is
odd). -/
theorem S_mod_two (n : Nat) : S n % 2 = n % 2 := by
  induction n with
  | zero => rfl
  | succ k ih =>
    show (a * S k + 1) % 2 = (k + 1) % 2
    have h1 : a * S k % 2 = S k % 2 := by
      have h2 := Nat.mul_mod a (S k) 2
      rw [show a % 2 = 1 from by norm_num [a], one_mul] at h2
      omega
    omega

/-- Powers of the multiplier are `1` modulo `4`. -/
theorem pow_mod_four (t : Nat) : a ^ t % 4 = 1 := by
  rw [Nat.pow_mod, show a % 4 = 1 from by norm_num [a], one_pow]
  rfl

/-- Exact 2-adic valuation of the geometric sum: `S (2^k · odd)` is `2^k`
times an odd number. -/
theorem S_two_pow : ∀ k b, b % 2 = 1 →
    ∃ d, S (2 ^ k * b) = 2 ^ k * d ∧ d % 2 = 1 := by
  intro k
  induction k with
  | zero =>
    intro b hb
    refine ⟨S b, by simp, ?_⟩
    rw [S_mod_two]
    exact hb
  | succ k ih =>
    intro b hb
    obtain ⟨d, hd, hdodd⟩ := ih b hb
    have hsplit : 2 ^ (k + 1) * b = 2 * (2 ^ k * b) := by
      rw [pow_succ]
      ring
    have h4 := pow_mod_four (2 ^ k * b)
    have hmod : (1 + a ^ (2 ^ k * b)) % 4 = 2 := by omega
    refine ⟨d * ((1 + a ^ (2 ^ k * b)) / 2), ?_, ?_⟩
    · rw [hsplit, S_double, hd]
      have h2 : 1 + a ^ (2 ^ k * b) = 2 * ((1 + a ^ (2 ^ k * b)) / 2) := by omega
      calc 2 ^ k * d * (1 + a ^ (2 ^ k * b))
          = 2 ^ k * d * (2 * ((1 + a ^ (2 ^ k * b)) / 2)) := by rw [← h2]
        _ = 2 ^ (k + 1) * (d * ((1 + a ^ (2 ^ k * b)) / 2)) := by
            rw [pow_succ]
            ring
    · have h5 : (1 + a ^ (2 ^ k * b)) / 2 % 2 = 1 := by omega
      rw [Nat.mul_mod, hdodd, h5]

/-- The modulus is `2^32`. -/
theorem m_eq_two_pow : m = 2 ^ 32 := by norm_num [m]

/-- The modulus divides the geometric sum of length `m`. -/
theorem S_m_dvd : m ∣ S m := by
  obtain ⟨d, hd, _⟩ := S_two_pow 32 1 (by norm_num)
  refine ⟨d, ?_⟩
  rw [m_eq_two_pow, ← hd, mul_one]

/-- The modulus divides no geometric sum of positive length shorter than
`m`. -/
theorem S_not_dvd_small (n : Nat) (hn : 0 < n) (hnm : n < m) : ¬ m ∣ S n := by
  intro hdvd
  obtain ⟨k, b, hb2, rfl⟩ :=
    Nat.exists_eq_pow_mul_and_not_dvd (Nat.pos_iff_ne_zero.1 hn) 2 (by norm_num)
  have hbodd : b % 2 = 1 := by
    rw [Nat.dvd_iff_mod_eq_zero] at hb2
    omega
  obtain ⟨d, hd, hdodd⟩ := S_two_pow k b hbodd
  rw [hd, m_eq_two_pow] at hdvd
  have hk : k < 32 := by
    by_contra hk'
    push_neg at hk'
    have h32 : (2 : Nat) ^ 32 ≤ 2 ^ k := Nat.pow_le_pow_right (by norm_num) hk'
    have hble : 1 ≤ b := by omega
    have : m ≤ 2 ^ k * b := by
      calc m = 2 ^ 32 := m_eq_two_pow
        _ ≤ 2 ^ k := h32
        _ ≤ 2 ^ k * b := Nat.le_mul_of_pos_right _ hble
    omega
  have h2 : 2 ^ (32 - k) ∣ d := by
    have heq : (2 : Nat) ^ 32 = 2 ^ k * 2 ^ (32 - k) := by
      rw [← pow_add]
      congr 1
      omega
    rw [heq] at hdvd
    exact (Nat.mul_dvd_mul_iff_left (Nat.pos_pow_of_pos k (by norm_num))).1 hdvd
  have h3 : 2 ∣ d := dvd_trans (dvd_pow_self 2 (by omega : 32 - k ≠ 0)) h2
  omega

/-- Trajectory of `nextInt_` in closed form. -/
theorem iterate_formula (n s : Nat) (hs : s < m) :
    nextInt_^[n] s = (a ^ n * s + c * S n) % m := by
  induction n with
  | zero =>
    show s = (a ^ 0 * s + c * S 0) % m
    simp [S, Nat.mod_eq_of_lt hs]
  | succ k ih =>
    rw [Function.iterate_succ_apply', ih, nextInt_eq_mod]
    have h1 : ((a ^ k * s + c * S k) % m * a + c) % m
        = ((a ^ k * s + c * S k) * a + c) % m :=
      ((Nat.mod_modEq (a ^ k * s + c * S k) m).mul_right a).add_right c
    have h2 : (a ^ k * s + c * S k) * a + c = a ^ (k + 1) * s + c * S (k + 1) := by
      rw [show S (k + 1) = a * S k + 1 from rfl, pow_succ]
      ring
    rw [h1, h2]

/-- A seed recurs after `n` steps exactly when the modulus divides
`S n · ((a-1)·s + c)`. -/
theorem iterate_eq_iff (n s : Nat) (hs : s < m) :
    nextInt_^[n] s = s ↔ m ∣ S n * (1664524 * s + c) := by
  rw [iterate_formula n s hs]
  have hexpand : a ^ n * s + c * S n = s + S n * (1664524 * s + c) := by
    rw [geo n]
    ring
  rw [hexpand]
  constructor
  · intro h
    have hmeq : s + S n * (1664524 * s + c) ≡ s [MOD m] := by
      show (s + S n * (1664524 * s + c)) % m = s % m
      rw [h, Nat.mod_eq_of_lt hs]
    have h2 := (Nat.modEq_iff_dvd' (Nat.le_add_right s _)).1 hmeq.symm
    simpa using h2
  · intro h
    obtain ⟨t, ht⟩ := h
    rw [ht, Nat.add_mul_mod_self_left]
    exact Nat.mod_eq_of_lt hs

/-- The factor `(a-1)·s + c` is odd, hence coprime to the modulus `2^32`. -/
theorem coprime_aux (s : Nat) : Nat.Coprime m (1664524 * s + c) := by
  have hodd : Odd (1664524 * s + c) := by
    rw [Nat.odd_iff]
    have h1 : 1664524 * s % 2 = 0 := by
      rw [Nat.mul_mod, show 1664524 % 2 = 0 from by norm_num, zero_mul, Nat.zero_mod]
    have h2 : c % 2 = 1 := by norm_num [c]
    omega
  rw [m_eq_two_pow]
  exact Nat.Coprime.pow_left 32 (Nat.coprime_two_left.2 hodd)

/-- C9: with the compiled-in constants `m = 2^32`, `a = 1664525`,
`c = 1013904223`, the `nextInt` advance map has full period: from every seed
in `[0, m)`, `m` iterations return to the seed and no smaller positive
number of iterations does. -/
theorem lcg_full_period (s : Nat) (hs : s < m) :
    nextInt_^[m] s = s ∧ ∀ n, 0 < n → n < m → nextInt_^[n] s ≠ s := by
  constructor
  · rw [iterate_eq_iff m s hs]
    exact S_m_dvd.mul_right _
  · intro n hn hnm hiter
    rw [iterate_eq_iff n s hs] at hiter
    exact S_not_dvd_small n hn hnm ((coprime_aux s).dvd_of_dvd_mul_right hiter)

/-- Witness for C9 at seed `0`. -/
theorem lcg_full_period_witness : nextInt_^[m] 0 = 0 :=
  (lcg_full_period 0 (by decide)).1

end RandomLCG
